import Mathlib

/-! Shallow embedding of `src/main.py` (lab2.v21): a batch validator for user
records with nine text fields.  Pure predicates (`check_email`, `check_inn`,
`check_passport`, `check_weight`, `check_age`, `check_address`,
`check_occupation`, `check_degree`, `check_worldview`), the classifier
`parse_entry`, the batch partitioner `parse`, the aggregate report
`show_summary`, and the serializer `save_in_json` are translated below.

Modelling notes on Python semantics used by the source:

* `re.match(p, s)` anchors at the start; the patterns used all begin with
  `^` and end with `$`.  In Python, `$` matches at the end of the string or
  just before a single newline at the end of the string, so every pattern
  here also accepts its language followed by one trailing `'\n'`.
* `\d` and `\s` and `\w` are Unicode classes.  The repository reads its
  input decoded as windows-1251, whose repertoire contains only ASCII plus
  Cyrillic letters and a few punctuation signs, so we model `\d` as the
  ASCII digits, `\s` as the ASCII whitespace characters plus NBSP, and `\w`
  as ASCII letters, ASCII digits, underscore and the Cyrillic letters of
  that repertoire.
* `int(s)` strips outer whitespace, accepts an optional sign and a run of
  decimal digits with single underscores strictly between digits
  (`pyIntParse` below); anything else raises `ValueError`, which the source
  catches and turns into `False`.
-/

/-- Python `\s` on the windows-1251 repertoire: ASCII whitespace and NBSP. -/
def isPySpace (c : Char) : Bool :=
  c = ' ' || c = '\t' || c = '\n' || c = '\r' ||
  c = Char.ofNat 11 || c = Char.ofNat 12 || c = Char.ofNat 160

/-- The Cyrillic ranges written literally in the source patterns: `а-я` and `А-Я`. -/
def isCyr (c : Char) : Bool :=
  ('а' ≤ c && c ≤ 'я') || ('А' ≤ c && c ≤ 'Я')

/-- Python `\w` on the windows-1251 repertoire: ASCII letters and digits,
underscore, and the Cyrillic letters (ranges plus `ё`/`Ё`). -/
def isPyWord (c : Char) : Bool :=
  c.isAlpha || c.isDigit || c = '_' || isCyr c || c = 'ё' || c = 'Ё'

/-- Strip leading and trailing whitespace, as `str.strip()` does before
`int()` parses the remainder. -/
def pyStrip (cs : List Char) : List Char :=
  ((cs.dropWhile isPySpace).reverse.dropWhile isPySpace).reverse

/-- Digit accumulation for `int()`: after a first digit, a run of digits in
which a single underscore may stand between two digits. -/
def digitsVal : Nat → List Char → Option Nat
  | acc, [] => some acc
  | acc, '_' :: c :: cs =>
      if c.isDigit then digitsVal (acc * 10 + (c.toNat - 48)) cs else none
  | acc, c :: cs =>
      if c.isDigit then digitsVal (acc * 10 + (c.toNat - 48)) cs else none

/-- A nonempty digit run (underscores allowed between digits), as `int()`
accepts after the optional sign. -/
def pyDigits : List Char → Option Nat
  | [] => none
  | c :: cs => if c.isDigit then digitsVal (c.toNat - 48) cs else none

/-- Python `int(s)` on a string: strip outer whitespace, optional `+`/`-`
sign, then digits with single underscores between digits; `none` models the
`ValueError` raised otherwise. -/
def pyIntParse (s : String) : Option Int :=
  match pyStrip s.data with
  | '+' :: rest => (pyDigits rest).map Int.ofNat
  | '-' :: rest => (pyDigits rest).map (fun n => -(n : Int))
  | rest => (pyDigits rest).map Int.ofNat

/-- Source `Validator.check_weight`: `int(weight)` (ValueError gives `False`),
then `iweight > 25 and iweight < 300`. -/
def check_weight (weight : String) : Bool :=
  match pyIntParse weight with
  | none => false
  | some w => decide (25 < w) && decide (w < 300)

/-- Source `Validator.check_age`: `int(age)` (ValueError gives `False`), then
`iage >= 18 and iage < 110`. -/
def check_age (age : String) : Bool :=
  match pyIntParse age with
  | none => false
  | some a => decide (18 ≤ a) && decide (a < 110)

/-- Python `$` semantics: a core matcher extended to also accept its
language followed by one trailing newline (`$` matches at the end of the
string or just before a newline at the end of the string). -/
def withOptNl (core : List Char → Bool) (cs : List Char) : Bool :=
  core cs || (cs.getLast? = some '\n' && core cs.dropLast)

/-- The class `[^\s@]` of the email pattern's local part. -/
def localChar (c : Char) : Bool := !isPySpace c && c ≠ '@'

/-- The class `[^\s@.,]` of the email pattern's domain labels. -/
def labelChar (c : Char) : Bool := !isPySpace c && c ≠ '@' && c ≠ '.' && c ≠ ','

/-- Split a character list at every `'.'` (the separators are dropped; `n`
dots give `n+1` labels, empty labels included). -/
def splitDots : List Char → List (List Char)
  | [] => [[]]
  | c :: cs =>
      if c = '.' then [] :: splitDots cs
      else
        match splitDots cs with
        | l :: ls => (c :: l) :: ls
        | [] => [[c]]

/-- Matcher for the domain part `([^\s@.,]+\.)+[^\s@.,]{2,}` of the email
pattern: at least two dot-separated labels, all labels before the last
nonempty, the last of length at least two, all label characters in
`[^\s@.,]`. -/
def domainMatch (cs : List Char) : Bool :=
  let ls := splitDots cs
  decide (2 ≤ ls.length) &&
  ls.dropLast.all (fun l => !l.isEmpty && l.all labelChar) &&
  decide (2 ≤ (ls.getLastD []).length) && (ls.getLastD []).all labelChar

/-- Split a list at the first occurrence of `a` (dropped), `none` when `a`
does not occur. -/
def breakAt (a : Char) : List Char → Option (List Char × List Char)
  | [] => none
  | c :: cs =>
      if c = a then some ([], cs)
      else (breakAt a cs).map (fun p => (c :: p.1, p.2))

/-- Matcher for `[^\s@]+@([^\s@.,]+\.)+[^\s@.,]{2,}` (anchored): since the
local part cannot contain `'@'`, the split at the first `'@'` is the only
candidate decomposition. -/
def emailCore (cs : List Char) : Bool :=
  match breakAt '@' cs with
  | none => false
  | some (loc, dom) => !loc.isEmpty && loc.all localChar && domainMatch dom

/-- Source `Validator.check_email`: `re.match("^[^\s@]+@([^\s@.,]+\.)+[^\s@.,]{2,}$", email)`. -/
def check_email (email : String) : Bool :=
  withOptNl emailCore email.data

/-- Matcher for `\d{12}` (anchored). -/
def innCore (cs : List Char) : Bool :=
  decide (cs.length = 12) && cs.all Char.isDigit

/-- Source `Validator.check_inn`: `re.match('^\d{12}$', inn)`. -/
def check_inn (inn : String) : Bool :=
  withOptNl innCore inn.data

/-- Matcher for `\d{2} \d{2}` (anchored). -/
def passportCore : List Char → Bool
  | [a, b, s0, c, d] => a.isDigit && b.isDigit && s0 = ' ' && c.isDigit && d.isDigit
  | _ => false

/-- Source `Validator.check_passport`: `re.match('^\d{2} \d{2}$', passport)`. -/
def check_passport (passport : String) : Bool :=
  withOptNl passportCore passport.data

/-- The class `[\wа-яА-Я\s\.\d-]` of the address pattern's text portion. -/
def addrChar (c : Char) : Bool :=
  isPyWord c || isCyr c || isPySpace c || c = '.' || c.isDigit || c = '-'

/-- Matcher for `[\wа-яА-Я\s\.\d-]* \d+` (anchored): the digit run of a
match must be the maximal digit suffix and be preceded by a space, with the
rest drawn from the class. -/
def addressCore (cs : List Char) : Bool :=
  let r := cs.reverse
  let ds := r.takeWhile Char.isDigit
  let rest := r.dropWhile Char.isDigit
  !ds.isEmpty && rest.head? = some ' ' && rest.tail.all addrChar

/-- Source `Validator.check_address`: `re.match('^[\wа-яА-Я\s\.\d-]* \d+$', address)`. -/
def check_address (address : String) : Bool :=
  withOptNl addressCore address.data

/-- The class `[a-zA-Zа-яА-Я -]` shared by occupation, degree, worldview. -/
def occChar (c : Char) : Bool :=
  c.isAlpha || isCyr c || c = ' ' || c = '-'

/-- Matcher for `[a-zA-Zа-яА-Я -]+` (anchored). -/
def occCore (cs : List Char) : Bool :=
  !cs.isEmpty && cs.all occChar

/-- Source `Validator.check_occupation`: `re.match('^[a-zA-Zа-яА-Я -]+$', occupation)`. -/
def check_occupation (occupation : String) : Bool :=
  withOptNl occCore occupation.data

/-- Source `Validator.check_degree`: `re.match('^[a-zA-Zа-яА-Я -]+$', degree)`. -/
def check_degree (degree : String) : Bool :=
  withOptNl occCore degree.data

/-- Source `Validator.check_worldview`: `re.match('^[a-zA-Zа-яА-Я -]+$', worldview)`. -/
def check_worldview (worldview : String) : Bool :=
  withOptNl occCore worldview.data

/-- One input record: nine fields, all stored as text at construction time
(class `Entry` of the source stores every `dic[...]` value unchanged). -/
structure Entry where
  email : String
  weight : String
  inn : String
  passport_series : String
  occupation : String
  age : String
  academic_degree : String
  worldview : String
  address : String
deriving DecidableEq, Repr

/-- Source `Validator.parse_entry`: the if/elif chain running the checks in the
source's fixed order, appending the first failing field's name (so the
returned list has at most one element) and returning `[]` when all pass. -/
def parse_entry (entry : Entry) : List String :=
  if !check_email entry.email then ["email"]
  else if !check_inn entry.inn then ["inn"]
  else if !check_passport entry.passport_series then ["passport_series"]
  else if !check_weight entry.weight then ["weight"]
  else if !check_age entry.age then ["age"]
  else if !check_address entry.address then ["address"]
  else if !check_occupation entry.occupation then ["occupation"]
  else if !check_degree entry.academic_degree then ["academic_degree"]
  else if !check_worldview entry.worldview then ["worldview"]
  else []

/-- The loop body of `Validator.parse`, as a recursion over the held
entries: a failing record's key list goes to the first component, a passing
record itself to the second, preserving input order. -/
def parseLists : List Entry → List (List String) × List Entry
  | [] => ([], [])
  | e :: rest =>
      let r := parseLists rest
      if (parse_entry e).length ≠ 0 then ((parse_entry e) :: r.1, r.2)
      else (r.1, e :: r.2)

/-- The validator object: its only attribute is the held entry list. -/
structure Validator where
  entries : List Entry
deriving DecidableEq

/-- Source `Validator.parse`: reads `self.entries` and returns the pair
(illegal key lists, legal entries).  The method mutates nothing, which the
embedding makes explicit by returning the unchanged validator state
alongside the result. -/
def Validator.parse (v : Validator) : Validator × (List (List String) × List Entry) :=
  (v, parseLists v.entries)

/-- The nine field names in the declaration order of the source's
`errors_count` dict literal. -/
def summaryFields : List String :=
  ["email", "weight", "inn", "passport_series", "occupation",
   "age", "academic_degree", "worldview", "address"]

/-- One `errors_count[j] += 1` step on the association list (the key `j` is
present whenever the input comes from `parse`; a missing key, which would
raise `KeyError` in the source, leaves the list unchanged here). -/
def bumpKey (m : List (String × Nat)) (j : String) : List (String × Nat) :=
  m.map (fun p => if p.1 = j then (p.1, p.2 + 1) else p)

/-- Source `show_summary`, its counting loop: starts the grand total at `0` and every
field counter at `0` (in declaration order), then for each key of each
inner list increments that field's counter and the grand total.  The
printing/writing of the counters is I/O and not modelled. -/
def show_summary (result : List (List String)) : Nat × List (String × Nat) :=
  result.foldl
    (fun acc l => l.foldl (fun acc2 j => (acc2.1 + 1, bumpKey acc2.2 j)) acc)
    (0, summaryFields.map (fun f => (f, 0)))

/-- A Python value handed to `%`-formatting: the source passes the record's
stored field values, which are `str` under the data model. -/
inductive PyVal where
  | str (s : String)
  | int (n : Int)
deriving DecidableEq

/-- Python `'%d' % v`: renders a number; a `str` argument raises
`TypeError`, modelled as `none`. -/
def formatD : PyVal → Option String
  | .int n => some (toString n)
  | .str _ => none

/-- Python `'%s' % v` on a string: the text itself. -/
def formatS : String → String := id

/-- The body written by `save_in_json` for one record, with the source's
field order and `%` conversions: `%s` for the seven text fields and `%d`
for `weight` and `age`.  The fields are stored as text, so the two `%d`
conversions receive `str` values; the `none` result models the `TypeError`
they raise. -/
def save_in_json_record (e : Entry) : Option String := do
  let w ← formatD (.str e.weight)
  let a ← formatD (.str e.age)
  some ("\n    \x7b\n      \"email\": \"" ++ formatS e.email ++
        "\",\n      \"weight\": " ++ w ++
        ",\n      \"inn\": \"" ++ formatS e.inn ++
        "\",\n      \"passport_series\": \"" ++ formatS e.passport_series ++
        "\",\n      \"occupation\": \"" ++ formatS e.occupation ++
        "\",\n      \"age\": " ++ a ++
        ",\n      \"academic_degree\": \"" ++ formatS e.academic_degree ++
        "\",\n      \"worldview\": \"" ++ formatS e.worldview ++
        "\",\n      \"address\": \"" ++ formatS e.address ++ "\",\n    \x7d,")

/-- Source `save_in_json`: `'['`, then one formatted block per valid record in
input order, then `'\n]'`.  The first raised `TypeError` aborts the run,
modelled by `none` for the whole output. -/
def save_in_json (data : List Entry) : Option String := do
  let parts ← data.mapM save_in_json_record
  some ("[" ++ String.join parts ++ "\n]")

/-- The spec's view of `parse_entry` (§4.3): an explicit ordered list of
(field name, predicate) pairs in the claimed fixed order email, inn,
passport_series, weight, age, address, occupation, academic_degree,
worldview. -/
def orderedChecks : List (String × (Entry → Bool)) :=
  [("email", fun e => check_email e.email),
   ("inn", fun e => check_inn e.inn),
   ("passport_series", fun e => check_passport e.passport_series),
   ("weight", fun e => check_weight e.weight),
   ("age", fun e => check_age e.age),
   ("address", fun e => check_address e.address),
   ("occupation", fun e => check_occupation e.occupation),
   ("academic_degree", fun e => check_degree e.academic_degree),
   ("worldview", fun e => check_worldview e.worldview)]

/-- A record on which all nine checks pass. -/
def sampleValid : Entry :=
  ⟨"a@b.co", "70", "123456789012", "12 34", "teacher", "30",
   "PhD", "Humanism", "Lenina 5"⟩

/-- Rejoin dot-separated labels with `'.'` (left inverse of `splitDots`). -/
def joinDots : List (List Char) → List Char
  | [] => []
  | [l] => l
  | l :: ls => l ++ '.' :: joinDots ls

/-! Helper lemmas. -/

theorem withOptNl_iff (core : List Char → Bool) (cs : List Char) :
    withOptNl core cs = true ↔
      ∃ cs', (cs = cs' ∨ cs = cs' ++ ['\n']) ∧ core cs' = true := by
  unfold withOptNl
  simp only [Bool.or_eq_true, Bool.and_eq_true, decide_eq_true_eq]
  constructor
  · rintro (h | ⟨hl, hc⟩)
    · exact ⟨cs, Or.inl rfl, h⟩
    · rcases List.eq_nil_or_concat cs with rfl | ⟨L, b, rfl⟩
      · simp at hl
      · rw [List.concat_eq_append] at hl hc ⊢
        rw [List.getLast?_concat] at hl
        rw [List.dropLast_concat] at hc
        exact ⟨L, Or.inr (by rw [Option.some_inj.mp hl]), hc⟩
  · rintro ⟨cs', (rfl | rfl), hc⟩
    · exact Or.inl hc
    · exact Or.inr ⟨by rw [List.getLast?_concat], by rwa [List.dropLast_concat]⟩

theorem breakAt_some_shape (a : Char) (cs : List Char) :
    ∀ l r, breakAt a cs = some (l, r) → cs = l ++ a :: r ∧ a ∉ l := by
  induction cs with
  | nil => intro l r h; simp [breakAt] at h
  | cons c cs ih =>
    intro l r h
    unfold breakAt at h
    by_cases hc : c = a
    · rw [if_pos hc] at h
      rw [Option.some_inj] at h
      have hl : l = [] := (Prod.mk.injEq .. ▸ h).1.symm
      have hr : r = cs := (Prod.mk.injEq .. ▸ h).2.symm
      subst hl; subst hr; subst hc
      exact ⟨rfl, by simp⟩
    · rw [if_neg hc] at h
      cases hb : breakAt a cs with
      | none => rw [hb] at h; exact absurd h (by simp)
      | some p =>
        rw [hb] at h
        simp only [Option.map_some', Option.some_inj] at h
        have hl : c :: p.1 = l := (Prod.mk.injEq .. ▸ h).1
        have hr : p.2 = r := (Prod.mk.injEq .. ▸ h).2
        obtain ⟨hshape, hmem⟩ := ih p.1 p.2 (by rw [hb])
        subst hl; subst hr
        refine ⟨by rw [List.cons_append, ← hshape], ?_⟩
        intro hm
        rcases List.mem_cons.mp hm with rfl | hm2
        · exact hc rfl
        · exact hmem hm2

theorem breakAt_append (a : Char) (l r : List Char) (h : a ∉ l) :
    breakAt a (l ++ a :: r) = some (l, r) := by
  induction l with
  | nil => simp [breakAt]
  | cons c cs ih =>
    have hc : c ≠ a := fun hca => h (hca ▸ List.mem_cons_self c cs)
    have hcs : a ∉ cs := fun hm => h (List.mem_cons_of_mem _ hm)
    rw [List.cons_append]
    unfold breakAt
    rw [if_neg hc, ih hcs]
    rfl

theorem splitDots_ne_nil (cs : List Char) : splitDots cs ≠ [] := by
  induction cs with
  | nil => simp [splitDots]
  | cons c cs ih =>
    unfold splitDots
    by_cases h : c = '.'
    · simp [h]
    · rw [if_neg h]
      cases hs : splitDots cs with
      | nil => simp
      | cons l ls => simp

theorem splitDots_no_dot (l : List Char) (h : '.' ∉ l) : splitDots l = [l] := by
  induction l with
  | nil => rfl
  | cons c cs ih =>
    have hc : c ≠ '.' := fun hce => h (hce ▸ List.mem_cons_self c cs)
    have hcs : '.' ∉ cs := fun hm => h (List.mem_cons_of_mem _ hm)
    unfold splitDots
    rw [if_neg hc, ih hcs]

theorem splitDots_cons_ne (c : Char) (cs : List Char) (h : ¬c = '.') :
    splitDots (c :: cs) =
      match splitDots cs with
      | l :: ls => (c :: l) :: ls
      | [] => [[c]] := by
  simp only [splitDots]
  rw [if_neg h]

theorem splitDots_append (l rest : List Char) (h : '.' ∉ l) :
    splitDots (l ++ '.' :: rest) = l :: splitDots rest := by
  induction l with
  | nil => simp [splitDots]
  | cons c cs ih =>
    have hc : ¬c = '.' := fun hce => h (hce ▸ List.mem_cons_self c cs)
    have hcs : '.' ∉ cs := fun hm => h (List.mem_cons_of_mem _ hm)
    rw [List.cons_append, splitDots_cons_ne c _ hc, ih hcs]

theorem joinDots_cons (l : List Char) (ls : List (List Char)) (h : ls ≠ []) :
    joinDots (l :: ls) = l ++ '.' :: joinDots ls := by
  cases ls with
  | nil => exact absurd rfl h
  | cons l2 ls2 => rfl

theorem joinDots_splitDots (cs : List Char) : joinDots (splitDots cs) = cs := by
  induction cs with
  | nil => rfl
  | cons c cs ih =>
    unfold splitDots
    by_cases h : c = '.'
    · rw [if_pos h]
      rw [joinDots_cons [] (splitDots cs) (splitDots_ne_nil cs)]
      rw [ih, h]
      rfl
    · rw [if_neg h]
      cases hs : splitDots cs with
      | nil => exact absurd hs (splitDots_ne_nil cs)
      | cons l ls =>
        rw [hs] at ih
        cases ls with
        | nil =>
          simp only [joinDots] at ih ⊢
          rw [ih]
        | cons l2 ls2 =>
          rw [joinDots_cons (c :: l) (l2 :: ls2) (by simp)]
          rw [joinDots_cons l (l2 :: ls2) (by simp)] at ih
          rw [List.cons_append, ih]

theorem splitDots_joinDots (ls : List (List Char)) (hne : ls ≠ [])
    (h : ∀ l ∈ ls, '.' ∉ l) : splitDots (joinDots ls) = ls := by
  induction ls with
  | nil => exact absurd rfl hne
  | cons l ls ih =>
    cases ls with
    | nil =>
      simp only [joinDots]
      exact splitDots_no_dot l (h l (List.mem_cons_self l []))
    | cons l2 ls2 =>
      rw [joinDots_cons l (l2 :: ls2) (by simp)]
      rw [splitDots_append l (joinDots (l2 :: ls2)) (h l (List.mem_cons_self _ _))]
      rw [ih (by simp) (fun x hx => h x (List.mem_cons_of_mem _ hx))]

theorem joinDots_concat (gs : List (List Char)) (fin : List Char) :
    joinDots (gs ++ [fin]) = (gs.map (fun g => g ++ ['.'])).flatten ++ fin := by
  induction gs with
  | nil => rfl
  | cons g gs ih =>
    rw [List.cons_append, joinDots_cons g (gs ++ [fin]) (by simp), ih]
    simp [List.append_assoc]

theorem labelChar_ne_dot {c : Char} (h : labelChar c = true) : c ≠ '.' := by
  simp only [labelChar, Bool.and_eq_true, decide_eq_true_eq] at h
  exact h.1.2

theorem domainMatch_iff (cs : List Char) :
    domainMatch cs = true ↔
      ∃ gs fin, cs = (gs.map (fun g => g ++ ['.'])).flatten ++ fin ∧
        gs ≠ [] ∧ (∀ g ∈ gs, g ≠ [] ∧ ∀ c ∈ g, labelChar c = true) ∧
        2 ≤ fin.length ∧ (∀ c ∈ fin, labelChar c = true) := by
  unfold domainMatch
  simp only [Bool.and_eq_true, decide_eq_true_eq, List.all_eq_true,
    Bool.not_eq_true', List.isEmpty_eq_false]
  constructor
  · rintro ⟨⟨⟨hlen, hinit⟩, hlast⟩, hlastall⟩
    rcases List.eq_nil_or_concat (splitDots cs) with hnil | ⟨L, b, hsd⟩
    · exact absurd hnil (splitDots_ne_nil cs)
    rw [List.concat_eq_append] at hsd
    refine ⟨L, b, ?_, ?_, ?_, ?_, ?_⟩
    · rw [← joinDots_concat, ← hsd, joinDots_splitDots]
    · intro hL
      rw [hsd, hL] at hlen
      simp at hlen
    · intro g hg
      have hg' : g ∈ (splitDots cs).dropLast := by
        rw [hsd, List.dropLast_concat]
        exact hg
      obtain ⟨h1, h2⟩ := hinit g hg'
      exact ⟨h1, h2⟩
    · rwa [hsd, List.getLastD_concat] at hlast
    · intro c hc
      have := hlastall
      rw [hsd, List.getLastD_concat] at this
      exact this c hc
  · rintro ⟨gs, fin, rfl, hgs, hlab, hfin, hfinall⟩
    have hnodot : ∀ l ∈ gs ++ [fin], '.' ∉ l := by
      intro l hl hdot
      rcases List.mem_append.mp hl with h1 | h2
      · exact labelChar_ne_dot ((hlab l h1).2 '.' hdot) rfl
      · rw [List.mem_singleton.mp h2] at hdot
        exact labelChar_ne_dot (hfinall '.' hdot) rfl
    have hsd : splitDots ((gs.map (fun g => g ++ ['.'])).flatten ++ fin) = gs ++ [fin] := by
      rw [← joinDots_concat]
      exact splitDots_joinDots (gs ++ [fin]) (by simp) hnodot
    rw [hsd]
    refine ⟨⟨⟨?_, ?_⟩, ?_⟩, ?_⟩
    · rcases gs with _ | ⟨g, gs'⟩
      · exact absurd rfl hgs
      · simp
    · intro l hl
      rw [List.dropLast_concat] at hl
      exact ⟨(hlab l hl).1, (hlab l hl).2⟩
    · rwa [List.getLastD_concat]
    · rw [List.getLastD_concat]
      exact hfinall

theorem localChar_ne_at {c : Char} (h : localChar c = true) : c ≠ '@' := by
  simp only [localChar, Bool.and_eq_true, decide_eq_true_eq] at h
  exact h.2

theorem emailCore_iff (cs : List Char) :
    emailCore cs = true ↔
      ∃ loc dom, cs = loc ++ '@' :: dom ∧ loc ≠ [] ∧
        (∀ c ∈ loc, localChar c = true) ∧ domainMatch dom = true := by
  unfold emailCore
  cases hb : breakAt '@' cs with
  | none =>
    simp only [Bool.false_eq_true, false_iff]
    rintro ⟨loc, dom, rfl, hne, hall, hdm⟩
    have : breakAt '@' (loc ++ '@' :: dom) = some (loc, dom) :=
      breakAt_append '@' loc dom (fun hm => localChar_ne_at (hall '@' hm) rfl)
    rw [hb] at this
    exact absurd this (by simp)
  | some p =>
    obtain ⟨hshape, hmem⟩ := breakAt_some_shape '@' cs p.1 p.2 (by rw [hb])
    simp only [Bool.and_eq_true, Bool.not_eq_true', List.isEmpty_eq_false,
      List.all_eq_true]
    constructor
    · rintro ⟨⟨h1, h2⟩, h3⟩
      exact ⟨p.1, p.2, hshape, h1, h2, h3⟩
    · rintro ⟨loc, dom, heq, hne, hall, hdm⟩
      have hb2 : breakAt '@' cs = some (loc, dom) := by
        rw [heq]
        exact breakAt_append '@' loc dom (fun hm => localChar_ne_at (hall '@' hm) rfl)
      rw [hb] at hb2
      rw [Option.some_inj] at hb2
      have hl : p.1 = loc := by rw [hb2]
      have hr : p.2 = dom := by rw [hb2]
      rw [hl, hr]
      exact ⟨⟨hne, hall⟩, hdm⟩

theorem takeWhile_all (p : Char → Bool) (l : List Char) :
    ∀ c ∈ l.takeWhile p, p c = true := by
  intro c hc
  exact List.mem_takeWhile_imp hc

theorem takeWhile_append_stop (p : Char → Bool) (l1 : List Char) (a : Char)
    (l2 : List Char) (h1 : ∀ c ∈ l1, p c = true) (ha : p a = false) :
    (l1 ++ a :: l2).takeWhile p = l1 ∧ (l1 ++ a :: l2).dropWhile p = a :: l2 := by
  induction l1 with
  | nil => simp [List.takeWhile_cons, List.dropWhile_cons, ha]
  | cons c cs ih =>
    have hc : p c = true := h1 c (List.mem_cons_self c cs)
    have hcs : ∀ x ∈ cs, p x = true := fun x hx => h1 x (List.mem_cons_of_mem _ hx)
    obtain ⟨iht, ihd⟩ := ih hcs
    rw [List.cons_append]
    constructor
    · rw [List.takeWhile_cons, if_pos hc, iht]
    · rw [List.dropWhile_cons, if_pos hc, ihd]

theorem addressCore_iff (cs : List Char) :
    addressCore cs = true ↔
      ∃ pre ds, cs = pre ++ ' ' :: ds ∧ (∀ c ∈ pre, addrChar c = true) ∧
        ds ≠ [] ∧ (∀ c ∈ ds, c.isDigit = true) := by
  unfold addressCore
  simp only [Bool.and_eq_true, Bool.not_eq_true', List.isEmpty_eq_false,
    List.all_eq_true, decide_eq_true_eq]
  constructor
  · rintro ⟨⟨h1, h2⟩, h3⟩
    cases hdw : cs.reverse.dropWhile Char.isDigit with
    | nil => rw [hdw] at h2; simp at h2
    | cons x t =>
      rw [hdw] at h2 h3
      have hx : x = ' ' := by
        simp only [List.head?_cons, Option.some_inj] at h2
        exact h2
      subst hx
      have hsplit : cs.reverse = cs.reverse.takeWhile Char.isDigit ++ ' ' :: t := by
        rw [← hdw, List.takeWhile_append_dropWhile]
      have hcs : cs = t.reverse ++ ' ' :: (cs.reverse.takeWhile Char.isDigit).reverse := by
        conv_lhs => rw [← List.reverse_reverse cs]
        conv_lhs => rw [hsplit]
        simp
      refine ⟨t.reverse, (cs.reverse.takeWhile Char.isDigit).reverse, hcs, ?_, ?_, ?_⟩
      · intro c hc
        exact h3 c (List.mem_reverse.mp hc)
      · intro hnil
        rw [List.reverse_eq_nil_iff] at hnil
        exact h1 hnil
      · intro c hc
        exact takeWhile_all Char.isDigit cs.reverse c (List.mem_reverse.mp hc)
  · rintro ⟨pre, ds, rfl, hpre, hds, hdig⟩
    have hrev : (pre ++ ' ' :: ds).reverse = ds.reverse ++ ' ' :: pre.reverse := by
      simp
    have hstop := takeWhile_append_stop Char.isDigit ds.reverse ' ' pre.reverse
      (fun c hc => hdig c (List.mem_reverse.mp hc)) (by decide)
    rw [hrev, hstop.1, hstop.2]
    refine ⟨⟨?_, rfl⟩, ?_⟩
    · intro hnil
      rw [List.reverse_eq_nil_iff] at hnil
      exact hds hnil
    · intro c hc
      exact hpre c (List.mem_reverse.mp hc)

/-- C4 counterexample: `check_email` accepts `"a,b@c.co"`, which contains a
comma, and `"a@b.co\n"`, which contains whitespace; the claim's
characterization (no comma anywhere, no whitespace anywhere) calls both
invalid. -/
theorem check_email_claim_false :
    check_email "a,b@c.co" = true ∧ ',' ∈ "a,b@c.co".data ∧
    check_email "a@b.co\n" = true ∧ '\n' ∈ "a@b.co\n".data ∧
    isPySpace '\n' = true := by decide

/-- C4 amended: `check_email` accepts exactly the strings of shape
`loc@g1.g2.⋯.gk.fin` — a nonempty local part whose characters are neither
whitespace nor `'@'` (commas and dots are allowed there), then `'@'`, then
one or more nonempty dot-terminated labels and a final label of length at
least two over `[^\s@.,]` — optionally followed by one trailing newline. -/
theorem check_email_language (s : String) :
    check_email s = true ↔
      ∃ core loc gs fin,
        (s.data = core ∨ s.data = core ++ ['\n']) ∧
        core = loc ++ '@' :: ((gs.map (fun g => g ++ ['.'])).flatten ++ fin) ∧
        loc ≠ [] ∧ (∀ c ∈ loc, localChar c = true) ∧
        gs ≠ [] ∧ (∀ g ∈ gs, g ≠ [] ∧ ∀ c ∈ g, labelChar c = true) ∧
        2 ≤ fin.length ∧ (∀ c ∈ fin, labelChar c = true) := by
  unfold check_email
  rw [withOptNl_iff]
  constructor
  · rintro ⟨core, hd, hc⟩
    obtain ⟨loc, dom, rfl, hne, hall, hdm⟩ := (emailCore_iff core).mp hc
    obtain ⟨gs, fin, rfl, hgs, hlab, hflen, hfall⟩ := (domainMatch_iff dom).mp hdm
    exact ⟨_, loc, gs, fin, hd, rfl, hne, hall, hgs, hlab, hflen, hfall⟩
  · rintro ⟨core, loc, gs, fin, hd, rfl, hne, hall, hgs, hlab, hflen, hfall⟩
    refine ⟨_, hd, (emailCore_iff _).mpr ⟨loc, _, rfl, hne, hall, ?_⟩⟩
    exact (domainMatch_iff _).mpr ⟨gs, fin, rfl, hgs, hlab, hflen, hfall⟩

/-- C5 counterexample: `check_inn` accepts `"123456789012\n"`, a 13-character
string containing a non-digit, which the claim calls invalid. -/
theorem check_inn_claim_false :
    check_inn "123456789012\n" = true ∧
    "123456789012\n".data.length ≠ 12 ∧
    '\n' ∈ "123456789012\n".data ∧ Char.isDigit '\n' = false := by decide

/-- C5 amended: `check_inn` accepts exactly twelve decimal digits,
optionally followed by one trailing newline. -/
theorem check_inn_language (s : String) :
    check_inn s = true ↔
      ∃ ds : List Char, (s.data = ds ∨ s.data = ds ++ ['\n']) ∧
        ds.length = 12 ∧ ∀ c ∈ ds, c.isDigit = true := by
  unfold check_inn
  rw [withOptNl_iff]
  constructor
  · rintro ⟨ds, hd, hc⟩
    simp only [innCore, Bool.and_eq_true, decide_eq_true_eq, List.all_eq_true] at hc
    exact ⟨ds, hd, hc.1, hc.2⟩
  · rintro ⟨ds, hd, hlen, hdig⟩
    refine ⟨ds, hd, ?_⟩
    simp only [innCore, Bool.and_eq_true, decide_eq_true_eq, List.all_eq_true]
    exact ⟨hlen, hdig⟩

/-- C6 counterexample: `check_address` accepts `"_ 5"` although `'_'` is
neither a Latin letter, a Cyrillic letter, a digit, a space, a period, nor
a hyphen, and accepts `"\t 5"` although the claim allows only spaces. -/
theorem check_address_claim_false :
    check_address "_ 5" = true ∧
    Char.isAlpha '_' = false ∧ isCyr '_' = false ∧ Char.isDigit '_' = false ∧
    ('_' = ' ') = False ∧ ('_' = '.') = False ∧ ('_' = '-') = False ∧
    check_address "\t 5" = true := by
  refine ⟨by decide, by decide, by decide, by decide, by simp, by simp, by simp, by decide⟩

/-- C6 amended: `check_address` accepts exactly a (possibly empty) text
portion of characters from the class `\w` (word characters, underscore
included), the Cyrillic ranges, `\s` (any whitespace, not just spaces),
period, digits and hyphen, followed by exactly one space and a nonempty
run of digits, optionally followed by one trailing newline. -/
theorem check_address_language (s : String) :
    check_address s = true ↔
      ∃ core pre ds,
        (s.data = core ∨ s.data = core ++ ['\n']) ∧
        core = pre ++ ' ' :: ds ∧ (∀ c ∈ pre, addrChar c = true) ∧
        ds ≠ [] ∧ (∀ c ∈ ds, c.isDigit = true) := by
  unfold check_address
  rw [withOptNl_iff]
  constructor
  · rintro ⟨core, hd, hc⟩
    obtain ⟨pre, ds, rfl, hpre, hds, hdig⟩ := (addressCore_iff core).mp hc
    exact ⟨_, pre, ds, hd, rfl, hpre, hds, hdig⟩
  · rintro ⟨core, pre, ds, hd, rfl, hpre, hds, hdig⟩
    exact ⟨_, hd, (addressCore_iff _).mpr ⟨pre, ds, rfl, hpre, hds, hdig⟩⟩

/-- C1: `parse_entry` blames exactly the first entry of the ordered check
list whose predicate fails (email, inn, passport_series, weight, age,
address, occupation, academic_degree, worldview), and returns `[]`
(the "no failure" outcome) when all nine pass. -/
theorem parse_entry_first_failing_field (e : Entry) :
    parse_entry e =
      ((orderedChecks.find? (fun p => !p.2 e)).map (fun p => [p.1])).getD [] := by
  unfold parse_entry orderedChecks
  cases h1 : check_email e.email with
  | false => simp [List.find?, h1]
  | true =>
  cases h2 : check_inn e.inn with
  | false => simp [List.find?, h1, h2]
  | true =>
  cases h3 : check_passport e.passport_series with
  | false => simp [List.find?, h1, h2, h3]
  | true =>
  cases h4 : check_weight e.weight with
  | false => simp [List.find?, h1, h2, h3, h4]
  | true =>
  cases h5 : check_age e.age with
  | false => simp [List.find?, h1, h2, h3, h4, h5]
  | true =>
  cases h6 : check_address e.address with
  | false => simp [List.find?, h1, h2, h3, h4, h5, h6]
  | true =>
  cases h7 : check_occupation e.occupation with
  | false => simp [List.find?, h1, h2, h3, h4, h5, h6, h7]
  | true =>
  cases h8 : check_degree e.academic_degree with
  | false => simp [List.find?, h1, h2, h3, h4, h5, h6, h7, h8]
  | true =>
  cases h9 : check_worldview e.worldview with
  | false => simp [List.find?, h1, h2, h3, h4, h5, h6, h7, h8, h9]
  | true => simp [List.find?, h1, h2, h3, h4, h5, h6, h7, h8, h9]

/-- C3: the weight and age predicates hold exactly for strings that
Python's `int` parses to a value in the half-open bounds of the source
(`25 < w < 300`, `18 ≤ a < 110`), with the spec's boundary cases. -/
theorem check_weight_check_age_bounds :
    (∀ s : String, check_weight s = true ↔
      ∃ w, pyIntParse s = some w ∧ 25 < w ∧ w < 300) ∧
    (∀ s : String, check_age s = true ↔
      ∃ a, pyIntParse s = some a ∧ 18 ≤ a ∧ a < 110) ∧
    check_weight "25" = false ∧ check_weight "26" = true ∧
    check_weight "299" = true ∧ check_weight "300" = false ∧
    check_age "17" = false ∧ check_age "18" = true ∧
    check_age "109" = true ∧ check_age "110" = false := by
  refine ⟨fun s => ?_, fun s => ?_, by decide, by decide, by decide, by decide,
    by decide, by decide, by decide, by decide⟩
  · unfold check_weight
    cases hp : pyIntParse s with
    | none => simp
    | some w => simp
  · unfold check_age
    cases hp : pyIntParse s with
    | none => simp
    | some a => simp

/-- C9: `Validator.parse` leaves the validator's state (its held entries)
unchanged, and running it twice yields the identical partition. -/
theorem parse_pure_and_idempotent (v : Validator) :
    (v.parse).1 = v ∧ ((v.parse).1.parse).2 = (v.parse).2 ∧
    (v.parse).1.entries = v.entries :=
  ⟨rfl, rfl, rfl⟩

/-- C10: the numeric predicates inherit Python `int()` leniency — strings
with outer whitespace, a leading plus sign, or an underscore between
digits are accepted when the parsed value is in bounds. -/
theorem numeric_checks_accept_python_int_forms :
    check_weight " 26 " = true ∧ check_weight "+30" = true ∧
    check_weight "2_6" = true ∧
    check_age " 26 " = true ∧ check_age "+30" = true ∧
    check_age "2_6" = true := by decide

set_option maxHeartbeats 1000000 in
theorem parse_entry_nil_or_singleton (e : Entry) :
    parse_entry e = [] ∨ ∃ n, n ∈ summaryFields ∧ parse_entry e = [n] := by
  unfold parse_entry
  split_ifs <;> simp [summaryFields]

theorem parseLists_spec (l : List Entry) :
    (parseLists l).1 = (l.filter (fun e => !(parse_entry e).isEmpty)).map parse_entry ∧
    (parseLists l).2 = l.filter (fun e => (parse_entry e).isEmpty) := by
  induction l with
  | nil => exact ⟨rfl, rfl⟩
  | cons e rest ih =>
    obtain ⟨ih1, ih2⟩ := ih
    cases hpe : parse_entry e with
    | nil => simp [parseLists, hpe, ih1, ih2]
    | cons a as => simp [parseLists, hpe, ih1, ih2]

theorem parseLists_length (l : List Entry) :
    (parseLists l).1.length + (parseLists l).2.length = l.length := by
  induction l with
  | nil => rfl
  | cons e rest ih =>
    unfold parseLists
    by_cases h : (parse_entry e).length ≠ 0
    · simp only [if_pos h, List.length_cons]
      omega
    · simp only [if_neg h, List.length_cons]
      omega

/-- C2: `parse` partitions the held records: the valid output is exactly
the in-order sublist of records passing all checks, the invalid output is
exactly the in-order list of blamed-field singletons of the failing
records, the two lengths sum to the input length, and every invalid entry
carries exactly one blamed field. -/
theorem parse_partitions_input (v : Validator) :
    (v.parse).2.1.length + (v.parse).2.2.length = v.entries.length ∧
    (v.parse).2.2 = v.entries.filter (fun e => (parse_entry e).isEmpty) ∧
    (v.parse).2.1 =
      (v.entries.filter (fun e => !(parse_entry e).isEmpty)).map parse_entry ∧
    ∀ ill ∈ (v.parse).2.1, ill.length = 1 := by
  obtain ⟨h1, h2⟩ := parseLists_spec v.entries
  refine ⟨parseLists_length v.entries, h2, h1, ?_⟩
  intro ill hill
  rw [Validator.parse] at hill
  rw [h1] at hill
  obtain ⟨e, he, rfl⟩ := List.mem_map.mp hill
  have hne : parse_entry e ≠ [] := by
    have := (List.mem_filter.mp he).2
    simp only [Bool.not_eq_true', List.isEmpty_eq_false] at this
    exact this
  rcases parse_entry_nil_or_singleton e with h | ⟨n, _, hn⟩
  · exact absurd h hne
  · rw [hn]
    rfl

/-- C2 witness: the theorem applied to a one-record validator whose record
fails the email check. -/
theorem parse_partitions_input_witness : (["email"] : List String).length = 1 :=
  (parse_partitions_input ⟨[⟨"", "", "", "", "", "", "", "", ""⟩]⟩).2.2.2
    ["email"] (by decide)

theorem foldl_foldl_flatten {α β : Type} (g : β → α → β) (ll : List (List α)) (init : β) :
    ll.foldl (fun acc l => l.foldl g acc) init = ll.flatten.foldl g init := by
  induction ll generalizing init with
  | nil => rfl
  | cons l ls ih => simp [List.foldl_append, ih]

theorem bumpKey_map (L : List String) (g : String → Nat) (j : String) :
    bumpKey (L.map (fun f => (f, g f))) j =
      L.map (fun f => (f, g f + if f = j then 1 else 0)) := by
  unfold bumpKey
  rw [List.map_map]
  apply List.map_congr_left
  intro f _
  by_cases hf : f = j <;> simp [hf]

theorem foldl_count (js : List String) (L : List String) :
    ∀ (t : Nat) (g : String → Nat),
    js.foldl (fun acc j => (acc.1 + 1, bumpKey acc.2 j)) (t, L.map (fun f => (f, g f))) =
      (t + js.length, L.map (fun f => (f, g f + js.count f))) := by
  induction js with
  | nil => intro t g; simp
  | cons j js ih =>
    intro t g
    simp only [List.foldl_cons]
    rw [bumpKey_map]
    rw [ih (t + 1) (fun f => g f + if f = j then 1 else 0)]
    refine congrArg₂ Prod.mk (by rw [List.length_cons]; omega) ?_
    apply List.map_congr_left
    intro f _
    have hcnt : (j :: js).count f = js.count f + if f = j then 1 else 0 := by
      rw [List.count_cons]
      by_cases hf : f = j
      · simp [hf]
      · simp [beq_iff_eq, hf, Ne.symm hf]
    rw [hcnt]
    refine congrArg (Prod.mk f) (by omega)

theorem show_summary_char (result : List (List String)) :
    show_summary result =
      (result.flatten.length,
       summaryFields.map (fun f => (f, result.flatten.count f))) := by
  unfold show_summary
  rw [foldl_foldl_flatten]
  have h := foldl_count result.flatten summaryFields 0 (fun _ => 0)
  simpa using h

theorem flatten_count_singletons (result : List (List String))
    (h : ∀ ill ∈ result, ∃ n, ill = [n]) (f : String) :
    result.flatten.count f = (result.filter (fun ill => ill = [f])).length := by
  induction result with
  | nil => rfl
  | cons ill rest ih =>
    obtain ⟨n, rfl⟩ := h _ (List.mem_cons_self _ _)
    have hrest := ih (fun i hi => h i (List.mem_cons_of_mem _ hi))
    rw [List.flatten_cons, List.count_append, hrest]
    by_cases hn : n = f
    · subst hn
      rw [List.filter_cons_of_pos (by simp)]
      have hc : List.count n [n] = 1 := by simp
      rw [hc, List.length_cons]
      omega
    · rw [List.filter_cons_of_neg (by simp [hn])]
      have hc : List.count f [n] = 0 := by
        simp [List.count_cons, beq_iff_eq, Ne.symm hn]
      rw [hc]
      omega

theorem flatten_length_singletons (result : List (List String))
    (h : ∀ ill ∈ result, ∃ n, ill = [n]) :
    result.flatten.length = result.length := by
  induction result with
  | nil => rfl
  | cons ill rest ih =>
    obtain ⟨n, rfl⟩ := h _ (List.mem_cons_self _ _)
    have hrest := ih (fun i hi => h i (List.mem_cons_of_mem _ hi))
    rw [List.flatten_cons, List.length_append, hrest, List.length_cons]
    simp
    omega

theorem sum_map_add (L : List String) (a b : String → Nat) :
    (L.map (fun f => a f + b f)).sum = (L.map a).sum + (L.map b).sum := by
  induction L with
  | nil => rfl
  | cons f L ih =>
    simp only [List.map_cons, List.sum_cons, ih]
    omega

theorem sum_map_ite_notMem (L : List String) (j : String) (h : j ∉ L) :
    (L.map (fun f => if f = j then 1 else 0)).sum = 0 := by
  induction L with
  | nil => rfl
  | cons f L ih =>
    have hf : ¬f = j := fun he => h (he ▸ List.mem_cons_self f L)
    have hL : j ∉ L := fun hm => h (List.mem_cons_of_mem _ hm)
    simp only [List.map_cons, List.sum_cons, if_neg hf, ih hL]

theorem sum_map_ite_mem (L : List String) (j : String) (hN : L.Nodup) (h : j ∈ L) :
    (L.map (fun f => if f = j then 1 else 0)).sum = 1 := by
  induction L with
  | nil => simp at h
  | cons f L ih =>
    rcases List.mem_cons.mp h with rfl | hm
    · have hL : j ∉ L := (List.nodup_cons.mp hN).1
      simp only [List.map_cons, List.sum_cons, if_pos rfl, sum_map_ite_notMem L j hL]
      simp
    · have hf : ¬f = j := by
        rintro rfl
        exact (List.nodup_cons.mp hN).1 hm
      simp only [List.map_cons, List.sum_cons, if_neg hf,
        ih (List.nodup_cons.mp hN).2 hm]

theorem sum_counts (js : List String) (L : List String) (hN : L.Nodup)
    (hmem : ∀ x ∈ js, x ∈ L) :
    (L.map (fun f => js.count f)).sum = js.length := by
  induction js with
  | nil => simp
  | cons j js ih =>
    have h1 : ∀ x ∈ js, x ∈ L := fun x hx => hmem x (List.mem_cons_of_mem _ hx)
    have hstep : L.map (fun f => (j :: js).count f) =
        L.map (fun f => js.count f + if f = j then 1 else 0) := by
      apply List.map_congr_left
      intro f _
      rw [List.count_cons]
      by_cases hf : f = j
      · simp [hf]
      · simp [beq_iff_eq, hf, Ne.symm hf]
    rw [hstep, sum_map_add, ih h1,
      sum_map_ite_mem L j hN (hmem j (List.mem_cons_self j js)), List.length_cons]

/-- C7: on any invalid-entry list produced by `parse`, the summary starts
all nine counters at zero in the declaration order email, weight, inn,
passport_series, occupation, age, academic_degree, worldview, address,
each counter ends at the number of invalid entries blamed on that field,
and both the grand total and the sum of the counters equal the number of
invalid entries. -/
theorem show_summary_counts (v : Validator) :
    (show_summary (v.parse).2.1).1 = (v.parse).2.1.length ∧
    (show_summary (v.parse).2.1).2 =
      summaryFields.map
        (fun f => (f, ((v.parse).2.1.filter (fun ill => ill = [f])).length)) ∧
    ((show_summary (v.parse).2.1).2.map Prod.snd).sum = (v.parse).2.1.length ∧
    (show_summary (v.parse).2.1).2.map Prod.fst = summaryFields ∧
    show_summary [] = (0, summaryFields.map (fun f => (f, 0))) := by
  have hsing : ∀ ill ∈ (v.parse).2.1, ∃ n, n ∈ summaryFields ∧ ill = [n] := by
    intro ill hill
    rw [Validator.parse] at hill
    rw [(parseLists_spec v.entries).1] at hill
    obtain ⟨e, he, rfl⟩ := List.mem_map.mp hill
    have hne : ¬(parse_entry e).isEmpty = true := by
      have := (List.mem_filter.mp he).2
      simpa using this
    rcases parse_entry_nil_or_singleton e with h0 | ⟨n, hn, h0⟩
    · rw [h0] at hne
      simp at hne
    · exact ⟨n, hn, h0⟩
  have hsing' : ∀ ill ∈ (v.parse).2.1, ∃ n, ill = [n] := by
    intro ill h
    obtain ⟨n, _, hn⟩ := hsing ill h
    exact ⟨n, hn⟩
  have hmemflat : ∀ x ∈ (v.parse).2.1.flatten, x ∈ summaryFields := by
    intro x hx
    obtain ⟨ill, hill, hxin⟩ := List.mem_flatten.mp hx
    obtain ⟨n, hn, rfl⟩ := hsing ill hill
    rw [List.mem_singleton] at hxin
    subst hxin
    exact hn
  have hchar := show_summary_char (v.parse).2.1
  have hflatlen := flatten_length_singletons (v.parse).2.1 hsing'
  have hnodup : summaryFields.Nodup := by decide
  refine ⟨?_, ?_, ?_, ?_, rfl⟩
  · rw [hchar]
    exact hflatlen
  · rw [hchar]
    apply List.map_congr_left
    intro f _
    rw [flatten_count_singletons (v.parse).2.1 hsing' f]
  · rw [hchar]
    simp only [List.map_map]
    have hc : summaryFields.map (Prod.snd ∘ fun f => (f, (v.parse).2.1.flatten.count f)) =
        summaryFields.map (fun f => (v.parse).2.1.flatten.count f) := rfl
    rw [hc, sum_counts (v.parse).2.1.flatten summaryFields hnodup hmemflat]
    exact hflatlen
  · rw [hchar]
    simp only [List.map_map]
    have hid : (Prod.fst ∘ fun f => (f, List.count f (v.parse).2.1.flatten)) = id := rfl
    rw [hid, List.map_id]

/-- C8: the claim fails on the code — every record stores its fields as
text, and `save_in_json` formats `weight` and `age` with `%d`, which
raises `TypeError` on a `str` argument; so for `sampleValid`, a record
passing all nine checks, serialization produces no output at all instead
of a nine-field object. -/
theorem save_in_json_raises_typeerror :
    (∀ e : Entry, save_in_json_record e = none) ∧
    parse_entry sampleValid = [] ∧
    save_in_json [sampleValid] = none := by
  refine ⟨fun e => rfl, by decide, by decide⟩
